import Mathlib

/-!
Verification of the relevance-ranking pipeline in `main.py`.

Python strings are modelled as `List Char`; similarity scores (float tensors
in the source) are modelled as rationals `ℚ`.  The external collaborators
(PyMuPDF extraction, the SentenceTransformer embedding model, the filesystem)
are parameters of the embedding, collected in `Env`.
-/

/-- Auxiliary for Python `str.split()`: splits a character list at every
whitespace character, keeping the (possibly empty) fragments between
separators.  `splitAll s` is never empty. -/
def splitAll : List Char → List (List Char)
  | [] => [[]]
  | c :: cs =>
    if c.isWhitespace then [] :: splitAll cs
    else
      match splitAll cs with
      | [] => [[c]]
      | w :: ws => (c :: w) :: ws

/-- Python `text.split()` (no separator argument): split on runs of
whitespace and drop the empty fragments, so the result is the list of
whitespace-separated words of `text`. -/
def pySplit (s : List Char) : List (List Char) :=
  (splitAll s).filter (fun w => !w.isEmpty)

/-- The word groups `words[i:i+cs]` for `i in range(0, len(words), cs)`.
Python `range(0, n, cs)` enumerates `⌈n / cs⌉` indices `0, cs, 2·cs, …` when
`cs ≥ 1` (for `cs = 0` Python raises `ValueError`; that argument is never
used), and the slice `words[i:i+cs]` is `(words.drop i).take cs`. -/
def wordGroups (cs : Nat) (ws : List (List Char)) : List (List (List Char)) :=
  (List.range' 0 ((ws.length + cs - 1) / cs) cs).map (fun i => (ws.drop i).take cs)

/-- `chunk_text` from `main.py`:
`words = text.split(); [" ".join(words[i:i+chunk_size]) for i in range(0, len(words), chunk_size)]`. -/
def chunk_text (text : List Char) (chunk_size : Nat) : List (List Char) :=
  (wordGroups chunk_size (pySplit text)).map (fun g => List.intercalate [' '] g)

/-- Recursive characterization of `wordGroups`, used for the inductive proofs:
take a group of `cs` words off the front, recurse on the rest. -/
def chunkWords (cs : Nat) : List (List Char) → List (List (List Char))
  | [] => []
  | w :: ws => (w :: ws.take (cs - 1)) :: chunkWords cs (ws.drop (cs - 1))
termination_by ws => ws.length
decreasing_by simp [List.length_drop]; omega

/-- Whitespace-collapse of a text: its words joined by single spaces.  Used to
state the round-trip property of the chunker. -/
def collapse (s : List Char) : List Char :=
  List.intercalate [' '] (pySplit s)

/-- The order in which `similarities.argsort(descending=True)` lists the
indices: higher score first, equal scores by ascending original index (the
deterministic tie-break; `similarities` is the squeezed 1-D score tensor). -/
def rankLE (s : List ℚ) (i j : Nat) : Prop :=
  s.getD j 0 < s.getD i 0 ∨ (s.getD i 0 = s.getD j 0 ∧ i ≤ j)

instance rankLEDecidable (s : List ℚ) : DecidableRel (rankLE s) := fun i j => by
  unfold rankLE
  exact inferInstance

instance rankLETotal (s : List ℚ) : IsTotal Nat (rankLE s) := by
  constructor
  intro a b
  rcases lt_trichotomy (s.getD a 0) (s.getD b 0) with h | h | h
  · exact Or.inr (Or.inl h)
  · rcases Nat.le_total a b with hab | hab
    · exact Or.inl (Or.inr ⟨h, hab⟩)
    · exact Or.inr (Or.inr ⟨h.symm, hab⟩)
  · exact Or.inl (Or.inl h)

instance rankLETrans (s : List ℚ) : IsTrans Nat (rankLE s) := by
  constructor
  intro a b c hab hbc
  rcases hab with hab | ⟨hab, hab2⟩ <;> rcases hbc with hbc | ⟨hbc, hbc2⟩
  · exact Or.inl (lt_trans hbc hab)
  · exact Or.inl (hbc ▸ hab)
  · exact Or.inl (by rw [hab]; exact hbc)
  · exact Or.inr ⟨hab.trans hbc, hab2.trans hbc2⟩

/-- One admissible result of `similarities.argsort(descending=True)` on the
1-D score tensor `s`: the indices `0, …, s.length - 1` sorted by descending
score with equal scores in ascending-index order.  torch's default
`stable=False` sort guarantees only the descending score order and leaves
the relative order of equal scores unspecified; this executable definition
picks the stable representative so the pipeline can be evaluated, and
`argsortDescending_admissible` records that it satisfies the documented
contract `IsArgsortDescending`.  Properties that depend on the order of
equal scores are settled against `IsArgsortDescending`, never against the
tie order of this representative. -/
def argsortDescending (s : List ℚ) : List Nat :=
  List.insertionSort (rankLE s) (List.range s.length)

/-- Everything torch documents for `argsort(descending=True)` with the
default `stable=False`: the result is some permutation of the indices
`0, …, s.length - 1` in nonincreasing score order.  The relative order of
indices with equal scores is explicitly not guaranteed, so any such
permutation is an admissible result. -/
def IsArgsortDescending (s : List ℚ) (l : List Nat) : Prop :=
  l.Perm (List.range s.length)
    ∧ List.Pairwise (fun i j => s.getD j 0 ≤ s.getD i 0) l

/-- `tensor.squeeze()`: remove every dimension of size 1 from a shape. -/
def squeeze (shape : List Nat) : List Nat :=
  shape.filter (fun d => d != 1)

/-- `get_relevant_chunks` from `main.py`, instrumented with the number of
`model.encode` invocations it performs (second component).

`encode` is the external boundary: it stands for
`pytorch_cos_sim(model.encode(chunks), persona_embedding)`, i.e. it returns
the column of cosine similarities of the chunks against the query embedding.
That result is an `(n, 1)` tensor (`n` similarity rows); `dim() > 1` holds, so
it is squeezed: for `n = 1` all dimensions have size 1 and the squeeze leaves
a 0-dimensional scalar, so the `dim() == 0` branch returns `[]`; for `n ≥ 2`
the squeeze leaves a 1-D tensor, modelled by the plain list of scores.
`top_k` is `5` at every call site. -/
def get_relevant_chunks (encode : List (List Char) → List ℚ)
    (chunks : List (List Char)) (top_k : Nat) :
    List (Nat × List Char × ℚ) × Nat :=
  if chunks.length = 0 then ([], 0)
  else
    let similarities := encode chunks
    let dims0 : List Nat := [similarities.length, 1]
    let dims1 := if 1 < dims0.length then squeeze dims0 else dims0
    if dims1.length = 0 then ([], 1)
    else
      let top_indices := (argsortDescending similarities).take top_k
      (top_indices.map (fun i => (i, chunks.getD i [], similarities.getD i 0)), 1)

/-- The set of results `get_relevant_chunks` may return when its `argsort`
call is constrained only by the contract torch actually provides
(`IsArgsortDescending`, no tie order): the definition repeats
`get_relevant_chunks` line for line except that the sorted index list is
existentially any admissible one.  `IsRankerResult encode chunks top_k res`
therefore holds exactly for the outputs some run of the code may produce. -/
def IsRankerResult (encode : List (List Char) → List ℚ)
    (chunks : List (List Char)) (top_k : Nat)
    (res : List (Nat × List Char × ℚ)) : Prop :=
  if chunks.length = 0 then res = []
  else
    let similarities := encode chunks
    let dims0 : List Nat := [similarities.length, 1]
    let dims1 := if 1 < dims0.length then squeeze dims0 else dims0
    if dims1.length = 0 then res = []
    else ∃ l, IsArgsortDescending similarities l
      ∧ res = (l.take top_k).map
          (fun i => (i, chunks.getD i [], similarities.getD i 0))

/-- Python `content.split(".")`: split at every `'.'`, keeping empty
fragments (so `"".split(".") == [""]`). -/
def splitOnDot : List Char → List (List Char)
  | [] => [[]]
  | c :: cs =>
    if c = '.' then [] :: splitOnDot cs
    else
      match splitOnDot cs with
      | [] => [[c]]
      | w :: ws => (c :: w) :: ws

/-- `section_title = content.split(".")[0][:60]` from `process_collection`. -/
def section_title_of (content : List Char) : List Char :=
  ((splitOnDot content).getD 0 []).take 60

/-- Python `round(score, 4)`: round to four decimal places, ties to even
(Python's banker's rounding, on the rational model of the float score).
With `x = q·10000 = (q.num·10000) / q.den`, `n = ⌊x⌋` and
`rem = q.num·10000 - n·q.den`, the fractional part of `x` is `rem / q.den`,
so it is below, above or at one half according to how `2·rem` compares with
`q.den`; the chosen integer of ten-thousandths is returned as the rational
`n' / 10000`. -/
def pyRound4 (q : ℚ) : ℚ :=
  let n : ℤ := (q.num * 10000).fdiv q.den
  let rem : ℤ := q.num * 10000 - n * q.den
  mkRat
    (if 2 * rem < (q.den : ℤ) then n
     else if (q.den : ℤ) < 2 * rem then n + 1
     else if n % 2 = 0 then n else n + 1) 10000

/-- One positional text block of a page, as returned by
`page.get_text("blocks")` in PyMuPDF.  The source reads only index 4 of the
block tuple (its text); the geometry fields are dropped here. -/
structure Block where
  text : List Char
deriving DecidableEq

/-- `clean_blocks` from `main.py`:
`" ".join(block[4] for block in blocks if block[4].strip())`.
A stripped Python string is truthy iff it contains a non-whitespace
character. -/
def clean_blocks (blocks : List Block) : List Char :=
  List.intercalate [' ']
    ((blocks.map Block.text).filter (fun t => t.any (fun c => !c.isWhitespace)))

/-- One entry of the `documents` config list: either a bare filename string
or a JSON object whose `filename` field may be absent. -/
inductive DocEntry where
  | str (s : List Char)
  | obj (filename : Option (List Char))
deriving DecidableEq

/-- `doc if isinstance(doc, str) else doc.get("filename", "")`. -/
def resolveDoc : DocEntry → List Char
  | DocEntry.str s => s
  | DocEntry.obj f => f.getD []

/-- The collection's `challenge1b_input.json`, restricted to the keys the
source reads; a `none` field models an absent key. -/
structure Config where
  persona : Option (List Char)
  job : Option (List Char)
  documents : Option (List DocEntry)
deriving DecidableEq

def requiredKeys : List String := ["persona", "job", "documents"]

/-- Python `key in config` for the three modelled keys. -/
def hasKey (config : Config) (k : String) : Bool :=
  if k = "persona" then config.persona.isSome
  else if k = "job" then config.job.isSome
  else if k = "documents" then config.documents.isSome
  else false

/-- `[key for key in required_keys if key not in config]`. -/
def missing_keys (config : Config) : List String :=
  requiredKeys.filter (fun k => !hasKey config k)

/-- `validate_input` from `main.py`: raises a `KeyError` whose message names
the missing keys (modelled by the `Except.error` payload listing exactly
those keys, in `required_keys` order). -/
def validate_input (config : Config) : Except (List String) Unit :=
  if (missing_keys config).isEmpty then Except.ok ()
  else Except.error (missing_keys config)

/-- The external collaborators of `process_collection`: the filesystem
(`os.path.exists`), the extraction engine (`extract_text_by_page`, the pages
of a document, each a list of blocks), and the embedding boundary: `sim q`
is the score column returned for a chunk batch when the query embedding is
the encoding of the query string `q` (see `get_relevant_chunks`). -/
structure Env where
  fileExists : List Char → Bool
  extract_text_by_page : List Char → List (List Block)
  sim : List Char → List (List Char) → List ℚ

/-- `persona_task = f"{persona}. Task: {job}"`. -/
def persona_task (persona job : List Char) : List Char :=
  persona ++ ". Task: ".toList ++ job

/-- The per-page pipeline body of `process_collection`'s inner loop: clean
the blocks, skip the page when the text is whitespace-only, chunk it, skip
when there are no chunks, rank.  A skipped page contributes no rows, exactly
like the `continue` statements. -/
def pageRanked (enc : List (List Char) → List ℚ) (blocks : List Block) :
    List (Nat × List Char × ℚ) :=
  let text := clean_blocks blocks
  if !(text.any (fun c => !c.isWhitespace)) then []
  else
    let chunks := chunk_text text 50
    if chunks.isEmpty then []
    else (get_relevant_chunks enc chunks 5).1

/-- The resolved document list:
`documents = [doc if isinstance(doc, str) else doc.get("filename", "") for doc in raw_docs]`
followed by `documents = [doc for doc in documents if doc]`. -/
def docsOf (config : Config) : List (List Char) :=
  ((config.documents.getD []).map resolveDoc).filter (fun d => !d.isEmpty)

/-- The missing-file warnings printed by the document loop, one per document
whose resolved path does not exist, in loop order. -/
def warningsOf (env : Env) (docs : List (List Char)) : List (List Char) :=
  docs.filter (fun d => !env.fileExists d)

/-- The stream of ranked chunks produced by `process_collection`'s nested
loops, each tagged with its document and 1-based page number, in discovery
order (document order, then page order, then rank order within the page).
Documents whose file does not exist are skipped (`continue`). -/
def rankedRows (env : Env) (enc : List (List Char) → List ℚ)
    (docs : List (List Char)) : List (List Char × Nat × (Nat × List Char × ℚ)) :=
  docs.flatMap (fun doc =>
    if !env.fileExists doc then []
    else ((env.extract_text_by_page doc).enumFrom 1).flatMap (fun pb =>
      (pageRanked enc pb.2).map (fun t => (doc, pb.1, t))))

/-- One record of `output["extracted_sections"]`. -/
structure ExtractedSection where
  document : List Char
  page_number : Nat
  section_title : List Char
  importance_rank : ℚ
deriving DecidableEq

/-- One record of `output["subsection_analysis"]`. -/
structure SubsectionAnalysis where
  document : List Char
  page_number : Nat
  refined_text : List Char
deriving DecidableEq

/-- The `output["extracted_sections"]` list built by the nested loops: one
record appended per ranked chunk kept. -/
def extractedOf (env : Env) (enc : List (List Char) → List ℚ)
    (docs : List (List Char)) : List ExtractedSection :=
  docs.flatMap (fun doc =>
    if !env.fileExists doc then []
    else ((env.extract_text_by_page doc).enumFrom 1).flatMap (fun pb =>
      (pageRanked enc pb.2).map (fun t =>
        ⟨doc, pb.1, section_title_of t.2.1, pyRound4 t.2.2⟩)))

/-- The `output["subsection_analysis"]` list built by the nested loops: one
record appended per ranked chunk kept, alongside its `ExtractedSection`. -/
def analysisOf (env : Env) (enc : List (List Char) → List ℚ)
    (docs : List (List Char)) : List SubsectionAnalysis :=
  docs.flatMap (fun doc =>
    if !env.fileExists doc then []
    else ((env.extract_text_by_page doc).enumFrom 1).flatMap (fun pb =>
      (pageRanked enc pb.2).map (fun t => ⟨doc, pb.1, t.2.1⟩)))

/-- The `ExtractedSection` derived from one tagged ranked chunk. -/
def mkSection (r : List Char × Nat × (Nat × List Char × ℚ)) : ExtractedSection :=
  ⟨r.1, r.2.1, section_title_of r.2.2.2.1, pyRound4 r.2.2.2.2⟩

/-- The `SubsectionAnalysis` derived from one tagged ranked chunk. -/
def mkAnalysis (r : List Char × Nat × (Nat × List Char × ℚ)) : SubsectionAnalysis :=
  ⟨r.1, r.2.1, r.2.2.2.1⟩

/-- The serialized `challenge1b_output.json` of one collection (timestamp
omitted: `datetime.now()` is outside the model), plus the missing-file
warnings printed while producing it. -/
structure COut where
  documents : List (List Char)
  persona : List Char
  job : List Char
  extracted_sections : List ExtractedSection
  subsection_analysis : List SubsectionAnalysis
  warnings : List (List Char)
deriving DecidableEq

/-- `process_collection` from `main.py`.  `Except.ok` is the state in which
`challenge1b_output.json` was written; `Except.error` is the `KeyError`
raised by `validate_input` (no output file is produced in that case). -/
def process_collection (env : Env) (config : Config) : Except (List String) COut :=
  match validate_input config with
  | Except.error ks => Except.error ks
  | Except.ok _ =>
    let persona := config.persona.getD []
    let job := config.job.getD []
    let documents := docsOf config
    let enc := env.sim (persona_task persona job)
    Except.ok ⟨documents, persona, job,
      extractedOf env enc documents, analysisOf env enc documents,
      warningsOf env documents⟩

/-- `main` from `main.py` (named `mainBatch` because Lean reserves `main`):
the batch driver.  The discovered collections are given in their (already
sorted) traversal order; the `try/except` around each `process_collection`
call is modelled by every element carrying its own `Except` result, so one
collection's failure leaves the others untouched. -/
def mainBatch (env : Env) (collections : List Config) :
    List (Except (List String) COut) :=
  collections.map (process_collection env)

/-- Two concrete chunks whose similarity scores tie, for the tie-order
counterexample. -/
def chunksT : List (List Char) := ["aa".toList, "bb".toList]

/-- Score oracle giving both chunks of `chunksT` the same score `1/2`. -/
def encT : List (List Char) → List ℚ := fun _ => [mkRat 1 2, mkRat 1 2]

/-- The tied chunks listed with the smaller original index first. -/
def resGood : List (Nat × List Char × ℚ) :=
  [(0, "aa".toList, mkRat 1 2), (1, "bb".toList, mkRat 1 2)]

/-- The tied chunks listed with the larger original index first. -/
def resBad : List (Nat × List Char × ℚ) :=
  [(1, "bb".toList, mkRat 1 2), (0, "aa".toList, mkRat 1 2)]

/-- Concrete chunk list used by the ranker witnesses. -/
def chunksW : List (List Char) := ["aa".toList, "bb".toList, "cc".toList]

/-- Concrete score oracle used by the ranker witnesses (a tied pair). -/
def encW : List (List Char) → List ℚ := fun _ => [mkRat 1 2, 1, mkRat 1 2]

/-- A 51-one-letter-word page text: it chunks (at the fixed size 50) into
two chunks, so the single-chunk squeeze degeneracy is avoided.  Used by the
orchestrator witnesses. -/
def text51 : List Char := List.intercalate [' '] (List.replicate 51 ['b'])

/-- Concrete environment for the orchestrator witnesses: every file exists,
every document has one page holding `text51`, and the score of chunk `i` is
`i/10`. -/
def envP : Env :=
  ⟨fun _ => true, fun _ => [[⟨text51⟩]],
   fun _ chunks => (List.range chunks.length).map (fun i => mkRat i 10)⟩

/-- Concrete well-formed collection config for the orchestrator witnesses. -/
def cfgP : Config :=
  ⟨some "P".toList, some "J".toList, some [DocEntry.str "d.pdf".toList]⟩

/-- The score oracle `process_collection` derives for `cfgP`. -/
def encP : List (List Char) → List ℚ :=
  envP.sim (persona_task "P".toList "J".toList)

/-- The output `process_collection` serializes for `envP` and `cfgP`. -/
def outP : COut :=
  ⟨docsOf cfgP, "P".toList, "J".toList,
    extractedOf envP encP (docsOf cfgP), analysisOf envP encP (docsOf cfgP),
    warningsOf envP (docsOf cfgP)⟩

/-- Concrete config with the `job` key absent, for the C8 witness. -/
def cfgMissing : Config := ⟨some "P".toList, none, some []⟩

/-- Environment in which no file exists, for the C9 witness. -/
def envM : Env := ⟨fun _ => false, fun _ => [[⟨"x".toList⟩]], fun _ _ => []⟩

lemma range'_shift (step : Nat) : ∀ (n s : Nat),
    List.range' (s + step) n step = (List.range' s n step).map (· + step) := by
  intro n
  induction n with
  | zero => intro s; simp
  | succ n ih =>
    intro s
    rw [List.range'_succ, List.range'_succ, List.map_cons, ih (s + step)]

lemma chunkWords_nil (cs : Nat) : chunkWords cs [] = [] := by
  simp [chunkWords]

lemma chunkWords_cons (cs : Nat) (w : List Char) (ws : List (List Char)) :
    chunkWords cs (w :: ws) =
      (w :: ws.take (cs - 1)) :: chunkWords cs (ws.drop (cs - 1)) := by
  simp [chunkWords]

lemma wordGroups_eq_chunkWords (cs : Nat) (hcs : 1 ≤ cs) :
    ∀ ws, wordGroups cs ws = chunkWords cs ws := by
  have main : ∀ n ws, List.length ws ≤ n → wordGroups cs ws = chunkWords cs ws := by
    intro n
    induction n with
    | zero =>
      intro ws h
      have : ws = [] := List.length_eq_zero.mp (Nat.le_zero.mp h)
      subst this
      simp [wordGroups, chunkWords_nil, Nat.div_eq_of_lt (by omega : cs - 1 < cs)]
    | succ n ih =>
      intro ws h
      match ws with
      | [] =>
        simp [wordGroups, chunkWords_nil, Nat.div_eq_of_lt (by omega : cs - 1 < cs)]
      | w :: ws' =>
        have hk : ws'.length + 1 + cs - 1 = ws'.length + cs := by omega
        have hcount : (ws'.length + 1 + cs - 1) / cs = ws'.length / cs + 1 := by
          rw [hk, Nat.add_div_right _ (by omega : 0 < cs)]
        have hrest : ((ws'.drop (cs - 1)).length + cs - 1) / cs = ws'.length / cs := by
          rw [List.length_drop]
          rcases Nat.le_total (cs - 1) ws'.length with hle | hlt
          · congr 1
            omega
          · have h1 : ws'.length - (cs - 1) = 0 := by omega
            rw [h1]
            rw [Nat.div_eq_of_lt (by omega : 0 + cs - 1 < cs),
              Nat.div_eq_of_lt (by omega : ws'.length < cs)]
        rw [chunkWords_cons]
        unfold wordGroups
        simp only [List.length_cons]
        rw [hcount, List.range'_succ, List.map_cons]
        congr 1
        · rw [List.drop_zero, List.take_cons (by omega : 0 < cs)]
        · rw [show (0 : Nat) + cs = cs from by omega]
          have hshift := range'_shift cs (ws'.length / cs) 0
          rw [show (0 : Nat) + cs = cs from by omega] at hshift
          rw [hshift, List.map_map]
          have := ih (ws'.drop (cs - 1))
            (by simp only [List.length_cons] at h; simp only [List.length_drop]; omega)
          rw [← this]
          unfold wordGroups
          rw [hrest]
          apply List.map_congr_left
          intro i _
          simp only [Function.comp_apply]
          rw [show i + cs = (i + cs - 1) + 1 from by omega, List.drop_succ_cons,
            List.drop_drop, show cs - 1 + i = i + cs - 1 from by omega]
  intro ws
  exact main ws.length ws le_rfl

lemma chunkWords_flatten (cs : Nat) :
    ∀ ws, (chunkWords cs ws).flatten = ws := by
  intro ws
  induction ws using chunkWords.induct cs with
  | case1 => simp [chunkWords_nil]
  | case2 w ws ih =>
    rw [chunkWords_cons]
    simp only [List.flatten_cons, ih]
    simp [List.take_append_drop]

lemma chunkWords_mem_ne_nil (cs : Nat) :
    ∀ ws, ∀ g ∈ chunkWords cs ws, g ≠ [] := by
  intro ws
  induction ws using chunkWords.induct cs with
  | case1 => simp [chunkWords_nil]
  | case2 w ws ih =>
    rw [chunkWords_cons]
    intro g hg
    rcases List.mem_cons.mp hg with h | h
    · subst h; simp
    · exact ih g h

lemma chunkWords_mem_subset (cs : Nat) (ws : List (List Char)) :
    ∀ g ∈ chunkWords cs ws, ∀ w ∈ g, w ∈ ws := by
  intro g hg w hw
  rw [← chunkWords_flatten cs ws]
  exact List.mem_flatten.mpr ⟨g, hg, hw⟩

lemma chunkWords_length (cs : Nat) (hcs : 1 ≤ cs) :
    ∀ ws, (chunkWords cs ws).length = (ws.length + cs - 1) / cs := by
  intro ws
  rw [← wordGroups_eq_chunkWords cs hcs]
  simp [wordGroups]

lemma chunkWords_get_length (cs : Nat) (hcs : 1 ≤ cs) :
    ∀ ws i g, (chunkWords cs ws)[i]? = some g →
      (i + 1 < (chunkWords cs ws).length → g.length = cs) ∧
      (i + 1 = (chunkWords cs ws).length → 1 ≤ g.length ∧ g.length ≤ cs) := by
  intro ws
  induction ws using chunkWords.induct cs with
  | case1 => intro i g hg; rw [chunkWords_nil] at hg; simp at hg
  | case2 w ws ih =>
    intro i g hg
    rw [chunkWords_cons] at hg ⊢
    match i with
    | 0 =>
      simp only [List.getElem?_cons_zero, Option.some.injEq] at hg
      subst hg
      constructor
      · intro hlen
        simp only [List.length_cons] at hlen
        have hne : chunkWords cs (ws.drop (cs - 1)) ≠ [] := by
          intro hnil
          rw [hnil] at hlen
          simp at hlen
        have hws : ws.drop (cs - 1) ≠ [] := by
          intro hnil
          rw [hnil, chunkWords_nil] at hne
          exact hne rfl
        have : cs - 1 ≤ ws.length := by
          by_contra hlt
          push_neg at hlt
          exact hws (List.drop_eq_nil_of_le (by omega))
        simp [List.length_take]
        omega
      · intro _
        simp [List.length_take]
        omega
    | Nat.succ j =>
      simp only [List.getElem?_cons_succ] at hg
      have := ih j g hg
      simpa using this

lemma chunk_text_eq_map (text : List Char) (cs : Nat) (hcs : 1 ≤ cs) :
    chunk_text text cs =
      (chunkWords cs (pySplit text)).map (fun g => List.intercalate [' '] g) := by
  unfold chunk_text
  rw [wordGroups_eq_chunkWords cs hcs]

lemma splitAll_cons_ws {c : Char} (hc : c.isWhitespace = true) (cs : List Char) :
    splitAll (c :: cs) = [] :: splitAll cs := by
  simp [splitAll, hc]

lemma splitAll_cons_not_ws {c : Char} (hc : c.isWhitespace = false)
    {cs : List Char} {w : List Char} {ws : List (List Char)}
    (h : splitAll cs = w :: ws) : splitAll (c :: cs) = (c :: w) :: ws := by
  simp [splitAll, hc, h]

lemma splitAll_ne_nil (s : List Char) : splitAll s ≠ [] := by
  induction s with
  | nil => simp [splitAll]
  | cons c cs ih =>
    by_cases hc : c.isWhitespace
    · rw [splitAll_cons_ws hc]; simp
    · cases h : splitAll cs with
      | nil => exact absurd h ih
      | cons w ws =>
        rw [splitAll_cons_not_ws (by simpa using hc) h]; simp

lemma intercalate_one (w : List Char) : List.intercalate [' '] [w] = w := by
  simp [List.intercalate, List.intersperse]

lemma intercalate_cons_cons (w w2 : List Char) (rest : List (List Char)) :
    List.intercalate [' '] (w :: w2 :: rest) =
      w ++ ' ' :: List.intercalate [' '] (w2 :: rest) := by
  simp [List.intercalate, List.intersperse]

lemma splitAll_mem_no_ws (s : List Char) :
    ∀ w ∈ splitAll s, ∀ c ∈ w, c.isWhitespace = false := by
  induction s with
  | nil => intro w hw; simp [splitAll] at hw; subst hw; simp
  | cons c cs ih =>
    intro w hw
    by_cases hws : c.isWhitespace
    · rw [splitAll_cons_ws hws] at hw
      rcases List.mem_cons.mp hw with h | h
      · subst h; simp
      · exact ih w h
    · cases hsplit : splitAll cs with
      | nil => exact absurd hsplit (splitAll_ne_nil cs)
      | cons w0 ws0 =>
        rw [splitAll_cons_not_ws (by simpa using hws) hsplit] at hw
        rcases List.mem_cons.mp hw with h | h
        · subst h
          intro d hd
          rcases List.mem_cons.mp hd with h | h
          · subst h; simpa using hws
          · exact ih w0 (by rw [hsplit]; exact List.mem_cons_self _ _) d h
        · exact ih w (by rw [hsplit]; exact List.mem_cons_of_mem _ h)

lemma pySplit_mem_ne_nil (s : List Char) : ∀ w ∈ pySplit s, w ≠ [] := by
  intro w hw
  have := List.of_mem_filter hw
  simpa [List.isEmpty_iff] using this

lemma pySplit_mem_no_ws (s : List Char) :
    ∀ w ∈ pySplit s, ∀ c ∈ w, c.isWhitespace = false :=
  fun w hw => splitAll_mem_no_ws s w (List.mem_of_mem_filter hw)

lemma splitAll_append_ws (c : Char) (hc : c.isWhitespace = true) (b : List Char) :
    ∀ a, splitAll (a ++ c :: b) = splitAll a ++ splitAll b := by
  intro a
  induction a with
  | nil =>
    simp only [List.nil_append]
    rw [splitAll_cons_ws hc]
    simp [splitAll]
  | cons x a' ih =>
    simp only [List.cons_append]
    by_cases hx : x.isWhitespace
    · rw [splitAll_cons_ws hx, splitAll_cons_ws hx, ih]
      simp
    · cases hsplit : splitAll a' with
      | nil => exact absurd hsplit (splitAll_ne_nil a')
      | cons w ws =>
        have hcomb : splitAll (a' ++ c :: b) = w :: (ws ++ splitAll b) := by
          rw [ih, hsplit]; simp
        rw [splitAll_cons_not_ws (by simpa using hx) hcomb,
          splitAll_cons_not_ws (by simpa using hx) hsplit]
        simp

lemma pySplit_append_ws (c : Char) (hc : c.isWhitespace = true) (a b : List Char) :
    pySplit (a ++ c :: b) = pySplit a ++ pySplit b := by
  unfold pySplit
  rw [splitAll_append_ws c hc b a, List.filter_append]

lemma splitAll_single_word (w : List Char) (hne : w ≠ [])
    (hws : ∀ c ∈ w, c.isWhitespace = false) : splitAll w = [w] := by
  induction w with
  | nil => exact absurd rfl hne
  | cons c cs ih =>
    cases cs with
    | nil =>
      simp [splitAll, hws c (List.mem_cons_self _ _)]
    | cons d ds =>
      have hrec : splitAll (d :: ds) = [d :: ds] :=
        ih (by simp) (fun x hx => hws x (List.mem_cons_of_mem _ hx))
      rw [splitAll_cons_not_ws (hws c (List.mem_cons_self _ _)) hrec]

lemma pySplit_single_word (w : List Char) (hne : w ≠ [])
    (hws : ∀ c ∈ w, c.isWhitespace = false) : pySplit w = [w] := by
  unfold pySplit
  rw [splitAll_single_word w hne hws]
  simp [List.isEmpty_iff, hne]

lemma pySplit_intercalate (ws : List (List Char))
    (h1 : ∀ w ∈ ws, w ≠ []) (h2 : ∀ w ∈ ws, ∀ c ∈ w, c.isWhitespace = false) :
    pySplit (List.intercalate [' '] ws) = ws := by
  induction ws with
  | nil => simp [List.intercalate, pySplit, splitAll]
  | cons w ws' ih =>
    cases ws' with
    | nil =>
      rw [intercalate_one]
      exact pySplit_single_word w (h1 w (by simp)) (h2 w (by simp))
    | cons w2 rest =>
      rw [intercalate_cons_cons, pySplit_append_ws ' ' (by decide) w
        (List.intercalate [' '] (w2 :: rest)),
        pySplit_single_word w (h1 w (by simp)) (h2 w (by simp)),
        ih (fun x hx => h1 x (List.mem_cons_of_mem _ hx))
          (fun x hx => h2 x (List.mem_cons_of_mem _ hx))]
      rfl

lemma splitAll_all_ws (s : List Char) (h : ∀ c ∈ s, c.isWhitespace = true) :
    ∀ w ∈ splitAll s, w = [] := by
  induction s with
  | nil => intro w hw; simpa [splitAll] using hw
  | cons c cs ih =>
    intro w hw
    rw [splitAll_cons_ws (h c (List.mem_cons_self _ _))] at hw
    rcases List.mem_cons.mp hw with hh | hh
    · exact hh
    · exact ih (fun x hx => h x (List.mem_cons_of_mem _ hx)) w hh

lemma pySplit_all_ws (s : List Char) (h : ∀ c ∈ s, c.isWhitespace = true) :
    pySplit s = [] := by
  unfold pySplit
  rw [List.filter_eq_nil_iff]
  intro w hw
  have := splitAll_all_ws s h w hw
  subst this
  simp

lemma intercalate_append_ne_nil (x : Char) (b : List (List Char)) (hb : b ≠ []) :
    ∀ a : List (List Char), a ≠ [] →
      List.intercalate [x] (a ++ b) =
        List.intercalate [x] a ++ x :: List.intercalate [x] b := by
  intro a
  induction a with
  | nil => intro h; exact absurd rfl h
  | cons g a' ih =>
    intro _
    cases a' with
    | nil =>
      cases b with
      | nil => exact absurd rfl hb
      | cons b0 bt =>
        simp [List.intercalate, List.intersperse]
    | cons g2 at' =>
      have h1 : List.intercalate [x] ((g :: g2 :: at') ++ b) =
          g ++ x :: List.intercalate [x] ((g2 :: at') ++ b) := by
        simp [List.intercalate, List.intersperse]
      have h2 : List.intercalate [x] (g :: g2 :: at') =
          g ++ x :: List.intercalate [x] (g2 :: at') := by
        simp [List.intercalate, List.intersperse]
      rw [h1, h2, ih (by simp)]
      simp

lemma intercalate_map_intercalate (gs : List (List (List Char)))
    (h : ∀ g ∈ gs, g ≠ []) :
    List.intercalate [' '] (gs.map (fun g => List.intercalate [' '] g)) =
      List.intercalate [' '] gs.flatten := by
  induction gs with
  | nil => simp
  | cons g gs' ih =>
    cases gs' with
    | nil =>
      simp only [List.map_cons, List.map_nil, List.flatten_cons, List.flatten_nil,
        List.append_nil]
      exact intercalate_one _
    | cons g2 rest =>
      have hstep : List.intercalate [' ']
            ((g :: g2 :: rest).map (fun g => List.intercalate [' '] g)) =
          List.intercalate [' '] g ++
            ' ' :: List.intercalate [' ']
              ((g2 :: rest).map (fun g => List.intercalate [' '] g)) := by
        rw [List.map_cons, List.map_cons]
        exact intercalate_cons_cons _ _ _
      rw [hstep, ih (fun x hx => h x (List.mem_cons_of_mem _ hx))]
      have hflat : (g :: g2 :: rest).flatten = g ++ (g2 :: rest).flatten := by
        simp
      rw [hflat, intercalate_append_ne_nil ' ' (g2 :: rest).flatten
        (by
          have hg2 : g2 ≠ [] := h g2 (by simp)
          cases g2 with
          | nil => exact absurd rfl hg2
          | cons y ys => simp)
        g (h g (by simp))]

/-- C3: for every text and chunk size `≥ 1`, `chunk_text` returns exactly
`⌈word_count / chunk_size⌉` chunks (`word_count` being the number of
whitespace-separated words of the text), every chunk but the last holds
exactly `chunk_size` words, the last holds between `1` and `chunk_size`
words, and an empty or whitespace-only text yields no chunks at all. -/
theorem chunk_text_count_and_sizes (text : List Char) (cs : Nat) (hcs : 1 ≤ cs) :
    (chunk_text text cs).length = ((pySplit text).length + cs - 1) / cs
    ∧ (∀ i ch, (chunk_text text cs)[i]? = some ch →
        (i + 1 < (chunk_text text cs).length → (pySplit ch).length = cs)
        ∧ (i + 1 = (chunk_text text cs).length →
            1 ≤ (pySplit ch).length ∧ (pySplit ch).length ≤ cs))
    ∧ ((∀ c ∈ text, c.isWhitespace = true) → chunk_text text cs = []) := by
  rw [chunk_text_eq_map text cs hcs]
  refine ⟨?_, ?_, ?_⟩
  · rw [List.length_map, chunkWords_length cs hcs]
  · intro i ch hch
    rw [List.getElem?_map] at hch
    cases hg : (chunkWords cs (pySplit text))[i]? with
    | none => rw [hg] at hch; simp at hch
    | some g =>
      rw [hg] at hch
      simp only [Option.map_some', Option.some.injEq] at hch
      have hmem : g ∈ chunkWords cs (pySplit text) := List.getElem?_mem hg
      have hsub := chunkWords_mem_subset cs (pySplit text) g hmem
      have hws : pySplit (List.intercalate [' '] g) = g :=
        pySplit_intercalate g
          (fun w hw => pySplit_mem_ne_nil text w (hsub w hw))
          (fun w hw => pySplit_mem_no_ws text w (hsub w hw))
      have hlen := chunkWords_get_length cs hcs (pySplit text) i g hg
      subst hch
      rw [List.length_map]
      refine ⟨fun hlt => ?_, fun heq => ?_⟩
      · rw [hws]
        exact hlen.1 hlt
      · rw [hws]
        exact hlen.2 heq
  · intro hall
    rw [pySplit_all_ws text hall, chunkWords_nil]
    rfl

/-- Witness for `chunk_text_count_and_sizes` at `text = "a b c d e"`,
`chunk_size = 2`. -/
theorem chunk_text_count_and_sizes_witness :
    1 ≤ 2
    ∧ ((chunk_text "a b c d e".toList 2).length =
          ((pySplit "a b c d e".toList).length + 2 - 1) / 2
        ∧ (∀ i ch, (chunk_text "a b c d e".toList 2)[i]? = some ch →
            (i + 1 < (chunk_text "a b c d e".toList 2).length →
              (pySplit ch).length = 2)
            ∧ (i + 1 = (chunk_text "a b c d e".toList 2).length →
                1 ≤ (pySplit ch).length ∧ (pySplit ch).length ≤ 2))
        ∧ ((∀ c ∈ "a b c d e".toList, c.isWhitespace = true) →
            chunk_text "a b c d e".toList 2 = [])) :=
  ⟨by decide, chunk_text_count_and_sizes "a b c d e".toList 2 (by decide)⟩

/-- C4: chunking loses no word and invents none: joining the chunks with
single spaces and collapsing whitespace gives the same string as collapsing
whitespace in the original text. -/
theorem chunk_text_roundtrip (text : List Char) (cs : Nat) (hcs : 1 ≤ cs) :
    collapse (List.intercalate [' '] (chunk_text text cs)) = collapse text := by
  rw [chunk_text_eq_map text cs hcs]
  unfold collapse
  rw [intercalate_map_intercalate _ (chunkWords_mem_ne_nil cs (pySplit text)),
    chunkWords_flatten cs (pySplit text),
    pySplit_intercalate _ (pySplit_mem_ne_nil text) (pySplit_mem_no_ws text)]

/-- Witness for `chunk_text_roundtrip` at `text = " a  b c "`,
`chunk_size = 2`. -/
theorem chunk_text_roundtrip_witness :
    1 ≤ 2
    ∧ collapse (List.intercalate [' '] (chunk_text " a  b c ".toList 2)) =
        collapse " a  b c ".toList :=
  ⟨by decide, chunk_text_roundtrip " a  b c ".toList 2 (by decide)⟩

lemma argsortDescending_perm (s : List ℚ) :
    (argsortDescending s).Perm (List.range s.length) :=
  List.perm_insertionSort (rankLE s) (List.range s.length)

lemma argsortDescending_sorted (s : List ℚ) :
    List.Sorted (rankLE s) (argsortDescending s) :=
  List.sorted_insertionSort (rankLE s) (List.range s.length)

lemma argsortDescending_nodup (s : List ℚ) : (argsortDescending s).Nodup :=
  ((argsortDescending_perm s).nodup_iff).mpr (List.nodup_range s.length)

lemma argsortDescending_mem (s : List ℚ) (i : Nat) :
    i ∈ argsortDescending s ↔ i < s.length := by
  rw [(argsortDescending_perm s).mem_iff, List.mem_range]

lemma get_relevant_chunks_single (encode : List (List Char) → List ℚ)
    (chunks : List (List Char)) (top_k : Nat) (h1 : chunks.length = 1)
    (hlen : (encode chunks).length = chunks.length) :
    get_relevant_chunks encode chunks top_k = ([], 1) := by
  unfold get_relevant_chunks
  rw [if_neg (by omega)]
  simp only [squeeze, hlen, h1]
  norm_num

lemma get_relevant_chunks_eq (encode : List (List Char) → List ℚ)
    (chunks : List (List Char)) (top_k : Nat) (h2 : 2 ≤ chunks.length)
    (hlen : (encode chunks).length = chunks.length) :
    (get_relevant_chunks encode chunks top_k).1 =
      ((argsortDescending (encode chunks)).take top_k).map
        (fun i => (i, chunks.getD i [], (encode chunks).getD i 0)) := by
  unfold get_relevant_chunks
  rw [if_neg (by omega)]
  have hne1 : ((encode chunks).length != 1) = true := by
    simp only [bne_iff_ne]
    omega
  simp only [squeeze, List.length_cons, List.length_nil, List.filter, hne1]
  norm_num

/-- C5: on an empty chunk sequence, `get_relevant_chunks` returns the empty
result and performs zero invocations of the embedder's `encode` (the second
component counts the `model.encode` calls). -/
theorem get_relevant_chunks_empty (encode : List (List Char) → List ℚ)
    (top_k : Nat) : get_relevant_chunks encode [] top_k = ([], 0) := rfl

/-- C1 (the code refutes the claim): on a page whose chunk sequence has
exactly one chunk, `get_relevant_chunks` returns the empty list, not one
RankedChunk: the `(1, 1)` cosine-similarity matrix is squeezed to a
0-dimensional tensor, so the `dim() == 0` branch discards the chunk (the
embedder having been invoked once). -/
theorem get_relevant_chunks_single_chunk_empty :
    get_relevant_chunks (fun _ => [(1 : ℚ)])
      ["Paris is beautiful. Visit the Louvre.".toList] 5 = ([], 1) := by decide

lemma argsortDescending_admissible (s : List ℚ) :
    IsArgsortDescending s (argsortDescending s) := by
  refine ⟨argsortDescending_perm s, ?_⟩
  refine (argsortDescending_sorted s).imp ?_
  intro i j hr
  rcases hr with hlt | ⟨heq, _⟩
  · exact le_of_lt hlt
  · exact le_of_eq heq.symm

/-- C2 (tie-break clause refuted — code bug): the code ranks with
`similarities.argsort(descending=True)` under torch's default
`stable=False`, which guarantees no order among equal scores.  On the
concrete page with two chunks of equal similarity `1/2`, both index orders
are admissible results of the code (`IsRankerResult`), and the second one
lists the chunk with the larger original index first while the scores are
equal — so the claimed ascending-index tie-break is not a property the code
guarantees, although the spec requires it for reproducibility. -/
theorem get_relevant_chunks_tie_order_not_guaranteed :
    IsRankerResult encT chunksT 5 resGood
    ∧ IsRankerResult encT chunksT 5 resBad
    ∧ resGood.map (fun t => t.1) = [0, 1]
    ∧ resBad.map (fun t => t.1) = [1, 0]
    ∧ (∀ t ∈ resGood, t.2.2 = mkRat 1 2)
    ∧ (∀ t ∈ resBad, t.2.2 = mkRat 1 2) := by
  refine ⟨?_, ?_, by decide, by decide, by decide, by decide⟩
  · unfold IsRankerResult
    norm_num [squeeze]
    exact ⟨[0, 1], ⟨by exact List.Perm.refl _, by decide⟩, by decide⟩
  · unfold IsRankerResult
    norm_num [squeeze]
    exact ⟨[1, 0], ⟨by exact List.Perm.swap 0 1 [], by decide⟩, by decide⟩

/-- C10: each returned triple is internally consistent (index in range, text
and score taken at that index) and the returned indices are pairwise
distinct. -/
theorem get_relevant_chunks_consistent (encode : List (List Char) → List ℚ)
    (chunks : List (List Char)) (top_k : Nat)
    (hlen : (encode chunks).length = chunks.length) (hne : chunks ≠ []) :
    (∀ t ∈ (get_relevant_chunks encode chunks top_k).1,
        t.1 < chunks.length
        ∧ t.2.1 = chunks.getD t.1 []
        ∧ t.2.2 = (encode chunks).getD t.1 0)
    ∧ ((get_relevant_chunks encode chunks top_k).1.map
        (fun t => t.1)).Nodup := by
  have hlen1 : 1 ≤ chunks.length := by
    cases chunks with
    | nil => exact absurd rfl hne
    | cons a l => simp
  rcases Nat.lt_or_ge chunks.length 2 with hsmall | h2
  · have h1 : chunks.length = 1 := by omega
    rw [get_relevant_chunks_single encode chunks top_k h1 hlen]
    exact ⟨fun t ht => absurd ht (List.not_mem_nil t), List.nodup_nil⟩
  · rw [get_relevant_chunks_eq encode chunks top_k h2 hlen]
    constructor
    · intro t ht
      rcases List.mem_map.mp ht with ⟨i, hi, hfi⟩
      have himem : i ∈ argsortDescending (encode chunks) :=
        List.mem_of_mem_take hi
      have hilt : i < chunks.length := by
        have := (argsortDescending_mem (encode chunks) i).mp himem
        omega
      subst hfi
      exact ⟨hilt, rfl, rfl⟩
    · rw [List.map_map]
      have hid : ((fun t : Nat × List Char × ℚ => t.1) ∘
          (fun i => (i, chunks.getD i [], (encode chunks).getD i 0))) =
          fun i : Nat => i := rfl
      rw [hid, List.map_id']
      exact ((argsortDescending_nodup (encode chunks)).sublist
        (List.take_sublist top_k _))

/-- Witness for `get_relevant_chunks_consistent` at the same three chunks. -/
theorem get_relevant_chunks_consistent_witness :
    (encW chunksW).length = chunksW.length
    ∧ chunksW ≠ []
    ∧ ((∀ t ∈ (get_relevant_chunks encW chunksW 5).1,
          t.1 < chunksW.length
          ∧ t.2.1 = chunksW.getD t.1 []
          ∧ t.2.2 = (encW chunksW).getD t.1 0)
        ∧ ((get_relevant_chunks encW chunksW 5).1.map
            (fun t => t.1)).Nodup) :=
  ⟨by decide, by decide,
    get_relevant_chunks_consistent encW chunksW 5 (by decide) (by decide)⟩

lemma splitOnDot_cons_dot (cs : List Char) :
    splitOnDot ('.' :: cs) = [] :: splitOnDot cs := by
  simp [splitOnDot]

lemma splitOnDot_cons_not_dot {c : Char} (hc : (c = '.') = False)
    {cs : List Char} {w : List Char} {ws : List (List Char)}
    (h : splitOnDot cs = w :: ws) : splitOnDot (c :: cs) = (c :: w) :: ws := by
  simp [splitOnDot, hc, h]

lemma splitOnDot_ne_nil (s : List Char) : splitOnDot s ≠ [] := by
  induction s with
  | nil => simp [splitOnDot]
  | cons c cs ih =>
    by_cases hc : c = '.'
    · subst hc; rw [splitOnDot_cons_dot]; simp
    · cases h : splitOnDot cs with
      | nil => exact absurd h ih
      | cons w ws =>
        rw [splitOnDot_cons_not_dot (by simp [hc]) h]; simp

lemma splitOnDot_head (content : List Char) :
    (splitOnDot content).getD 0 [] = content.takeWhile (fun c => c != '.') := by
  induction content with
  | nil => simp [splitOnDot]
  | cons c cs ih =>
    by_cases hc : c = '.'
    · subst hc
      rw [splitOnDot_cons_dot, List.takeWhile_cons]
      simp
    · cases h : splitOnDot cs with
      | nil => exact absurd h (splitOnDot_ne_nil cs)
      | cons w ws =>
        rw [splitOnDot_cons_not_dot (by simp [hc]) h, List.takeWhile_cons]
        rw [h] at ih
        simp only [List.getD_cons_zero] at ih ⊢
        simp [hc, ih]

lemma takeWhile_eq_self_of_all {p : Char → Bool} :
    ∀ l : List Char, (∀ a ∈ l, p a = true) → l.takeWhile p = l := by
  intro l h
  induction l with
  | nil => rfl
  | cons c cs ih =>
    rw [List.takeWhile_cons, if_pos (h c (List.mem_cons_self _ _))]
    rw [ih (fun a ha => h a (List.mem_cons_of_mem _ ha))]

/-- `section_title_of` characterized: the text up to (not including) the
first period, truncated to 60 characters. -/
lemma section_title_of_eq (content : List Char) :
    section_title_of content = (content.takeWhile (fun c => c != '.')).take 60 := by
  unfold section_title_of
  rw [splitOnDot_head]

lemma extractedOf_eq_map (env : Env) (enc : List (List Char) → List ℚ)
    (docs : List (List Char)) :
    extractedOf env enc docs = (rankedRows env enc docs).map mkSection := by
  unfold extractedOf rankedRows
  rw [List.map_flatMap]
  congr 1
  funext doc
  by_cases hf : env.fileExists doc
  · simp only [hf, Bool.not_true, Bool.false_eq_true, if_false]
    rw [List.map_flatMap]
    congr 1
    funext pb
    rw [List.map_map]
    rfl
  · simp only [Bool.not_eq_true] at hf
    simp [hf]

lemma analysisOf_eq_map (env : Env) (enc : List (List Char) → List ℚ)
    (docs : List (List Char)) :
    analysisOf env enc docs = (rankedRows env enc docs).map mkAnalysis := by
  unfold analysisOf rankedRows
  rw [List.map_flatMap]
  congr 1
  funext doc
  by_cases hf : env.fileExists doc
  · simp only [hf, Bool.not_true, Bool.false_eq_true, if_false]
    rw [List.map_flatMap]
    congr 1
    funext pb
    rw [List.map_map]
    rfl
  · simp only [Bool.not_eq_true] at hf
    simp [hf]

/-- C6: every emitted `ExtractedSection` comes from the ranked chunk at the
same position in the ranked stream, its `section_title` is the chunk text up
to (not including) the first period truncated to 60 characters — the first
60 characters of the whole chunk when no period occurs — and its
`importance_rank` is the similarity score rounded to 4 decimal places. -/
theorem extracted_section_title_and_rank (env : Env)
    (enc : List (List Char) → List ℚ) (docs : List (List Char))
    (i : Nat) (e : ExtractedSection)
    (he : (extractedOf env enc docs)[i]? = some e) :
    ∃ r, (rankedRows env enc docs)[i]? = some r
      ∧ e.document = r.1 ∧ e.page_number = r.2.1
      ∧ e.section_title = (r.2.2.2.1.takeWhile (fun c => c != '.')).take 60
      ∧ ('.' ∉ r.2.2.2.1 → e.section_title = r.2.2.2.1.take 60)
      ∧ e.importance_rank = pyRound4 r.2.2.2.2 := by
  rw [extractedOf_eq_map, List.getElem?_map] at he
  cases hr : (rankedRows env enc docs)[i]? with
  | none => rw [hr] at he; simp at he
  | some r =>
    rw [hr] at he
    simp only [Option.map_some', Option.some.injEq] at he
    subst he
    refine ⟨r, rfl, rfl, rfl, ?_, ?_, rfl⟩
    · show section_title_of r.2.2.2.1 = _
      exact section_title_of_eq _
    · intro hnd
      show section_title_of r.2.2.2.1 = _
      rw [section_title_of_eq]
      congr 1
      apply takeWhile_eq_self_of_all
      intro a ha
      simp only [bne_iff_ne, ne_eq, decide_eq_true_eq]
      intro had
      subst had
      exact hnd ha

/-- Witness for `extracted_section_title_and_rank` at the first record of
the concrete collection. -/
theorem extracted_section_title_and_rank_witness :
    (extractedOf envP encP (docsOf cfgP))[0]? =
        some ⟨"d.pdf".toList, 1, "b".toList, mkRat 1 10⟩
    ∧ ∃ r, (rankedRows envP encP (docsOf cfgP))[0]? = some r
        ∧ (ExtractedSection.mk "d.pdf".toList 1 "b".toList
            (mkRat 1 10)).document = r.1
        ∧ (ExtractedSection.mk "d.pdf".toList 1 "b".toList
            (mkRat 1 10)).page_number = r.2.1
        ∧ (ExtractedSection.mk "d.pdf".toList 1 "b".toList
            (mkRat 1 10)).section_title =
          (r.2.2.2.1.takeWhile (fun c => c != '.')).take 60
        ∧ ('.' ∉ r.2.2.2.1 →
            (ExtractedSection.mk "d.pdf".toList 1 "b".toList
              (mkRat 1 10)).section_title = r.2.2.2.1.take 60)
        ∧ (ExtractedSection.mk "d.pdf".toList 1 "b".toList
            (mkRat 1 10)).importance_rank = pyRound4 r.2.2.2.2 :=
  ⟨by decide,
    extracted_section_title_and_rank envP encP (docsOf cfgP) 0
      ⟨"d.pdf".toList, 1, "b".toList, mkRat 1 10⟩ (by decide)⟩

/-- C7: in every serialized output, `extracted_sections` and
`subsection_analysis` have the same length, both are images of one and the
same ranked-chunk stream (one pair per ranked chunk kept, in discovery
order), and entries at equal positions carry the same document, the same
page number and the same chunk. -/
theorem process_collection_parallel_lists (env : Env) (config : Config)
    (out : COut) (h : process_collection env config = Except.ok out) :
    out.extracted_sections.length = out.subsection_analysis.length
    ∧ out.extracted_sections =
        (rankedRows env (env.sim (persona_task out.persona out.job))
          out.documents).map mkSection
    ∧ out.subsection_analysis =
        (rankedRows env (env.sim (persona_task out.persona out.job))
          out.documents).map mkAnalysis
    ∧ ∀ (i : Nat) (e : ExtractedSection) (a : SubsectionAnalysis),
        out.extracted_sections[i]? = some e →
        out.subsection_analysis[i]? = some a →
        e.document = a.document ∧ e.page_number = a.page_number
        ∧ e.section_title = section_title_of a.refined_text := by
  unfold process_collection at h
  cases hv : validate_input config with
  | error ks => rw [hv] at h; simp at h
  | ok u =>
    rw [hv] at h
    simp only [Except.ok.injEq] at h
    subst h
    refine ⟨?_, ?_, ?_, ?_⟩
    · show (extractedOf env _ _).length = (analysisOf env _ _).length
      rw [extractedOf_eq_map, analysisOf_eq_map, List.length_map,
        List.length_map]
    · exact extractedOf_eq_map env _ _
    · exact analysisOf_eq_map env _ _
    · intro i e a hea haa
      have hea' : ((extractedOf env
          (env.sim (persona_task (config.persona.getD [])
            (config.job.getD []))) (docsOf config)))[i]? = some e := hea
      have haa' : ((analysisOf env
          (env.sim (persona_task (config.persona.getD [])
            (config.job.getD []))) (docsOf config)))[i]? = some a := haa
      rw [extractedOf_eq_map, List.getElem?_map] at hea'
      rw [analysisOf_eq_map, List.getElem?_map] at haa'
      cases hr : (rankedRows env
          (env.sim (persona_task (config.persona.getD [])
            (config.job.getD []))) (docsOf config))[i]? with
      | none => rw [hr] at hea'; simp at hea'
      | some r =>
        rw [hr] at hea' haa'
        simp only [Option.map_some', Option.some.injEq] at hea' haa'
        subst hea'
        subst haa'
        exact ⟨rfl, rfl, rfl⟩

/-- Witness for `process_collection_parallel_lists` at the concrete
collection `envP`/`cfgP`. -/
theorem process_collection_parallel_lists_witness :
    process_collection envP cfgP = Except.ok outP
    ∧ (outP.extracted_sections.length = outP.subsection_analysis.length
        ∧ outP.extracted_sections =
            (rankedRows envP (envP.sim (persona_task outP.persona outP.job))
              outP.documents).map mkSection
        ∧ outP.subsection_analysis =
            (rankedRows envP (envP.sim (persona_task outP.persona outP.job))
              outP.documents).map mkAnalysis
        ∧ ∀ (i : Nat) (e : ExtractedSection) (a : SubsectionAnalysis),
            outP.extracted_sections[i]? = some e →
            outP.subsection_analysis[i]? = some a →
            e.document = a.document ∧ e.page_number = a.page_number
            ∧ e.section_title = section_title_of a.refined_text) :=
  ⟨rfl, process_collection_parallel_lists envP cfgP outP rfl⟩

/-- C8: a config with at least one required key absent makes
`process_collection` fail with an error naming exactly the missing keys (so
no output record is produced for that collection), and in a batch run the
failing collection leaves every other collection's result untouched. -/
theorem process_collection_config_error (env : Env) (config : Config)
    (h : missing_keys config ≠ []) :
    process_collection env config = Except.error (missing_keys config)
    ∧ (∀ k, k ∈ missing_keys config ↔
        k ∈ requiredKeys ∧ hasKey config k = false)
    ∧ ∀ pre post, mainBatch env (pre ++ config :: post) =
        mainBatch env pre ++
          Except.error (missing_keys config) :: mainBatch env post := by
  have herr : validate_input config = Except.error (missing_keys config) := by
    unfold validate_input
    rw [if_neg]
    simpa [List.isEmpty_iff] using h
  have hpc : process_collection env config =
      Except.error (missing_keys config) := by
    unfold process_collection
    rw [herr]
  refine ⟨hpc, ?_, ?_⟩
  · intro k
    unfold missing_keys
    rw [List.mem_filter]
    constructor
    · rintro ⟨h1, h2⟩
      exact ⟨h1, by simpa using h2⟩
    · rintro ⟨h1, h2⟩
      exact ⟨h1, by simpa using h2⟩
  · intro pre post
    unfold mainBatch
    rw [List.map_append, List.map_cons, hpc]

/-- Witness for `process_collection_config_error` at a config whose `job`
key is absent. -/
theorem process_collection_config_error_witness :
    missing_keys cfgMissing ≠ []
    ∧ (process_collection envP cfgMissing =
          Except.error (missing_keys cfgMissing)
        ∧ (∀ k, k ∈ missing_keys cfgMissing ↔
            k ∈ requiredKeys ∧ hasKey cfgMissing k = false)
        ∧ ∀ pre post, mainBatch envP (pre ++ cfgMissing :: post) =
            mainBatch envP pre ++
              Except.error (missing_keys cfgMissing) ::
                mainBatch envP post) :=
  ⟨by decide, process_collection_config_error envP cfgMissing (by decide)⟩

/-- C9: a document whose resolved path does not exist is skipped with a
warning: it contributes no entry to either output list (the lists are
exactly those of the remaining documents, in order), and the other
documents of the collection are still processed. -/
theorem missing_document_skipped (env : Env)
    (enc : List (List Char) → List ℚ) (pre post : List (List Char))
    (d : List Char) (h : env.fileExists d = false) :
    extractedOf env enc (pre ++ d :: post) =
        extractedOf env enc pre ++ extractedOf env enc post
    ∧ analysisOf env enc (pre ++ d :: post) =
        analysisOf env enc pre ++ analysisOf env enc post
    ∧ d ∈ warningsOf env (pre ++ d :: post) := by
  refine ⟨?_, ?_, ?_⟩
  · unfold extractedOf
    rw [List.flatMap_append, List.flatMap_cons]
    simp [h]
  · unfold analysisOf
    rw [List.flatMap_append, List.flatMap_cons]
    simp [h]
  · unfold warningsOf
    rw [List.filter_append]
    apply List.mem_append_right
    rw [List.filter_cons]
    simp [h]

/-- Witness for `missing_document_skipped` in the environment where no file
exists. -/
theorem missing_document_skipped_witness :
    envM.fileExists "m.pdf".toList = false
    ∧ (extractedOf envM (fun _ => [])
          (["a.pdf".toList] ++ "m.pdf".toList :: ["b.pdf".toList]) =
        extractedOf envM (fun _ => []) ["a.pdf".toList] ++
          extractedOf envM (fun _ => []) ["b.pdf".toList]
      ∧ analysisOf envM (fun _ => [])
          (["a.pdf".toList] ++ "m.pdf".toList :: ["b.pdf".toList]) =
        analysisOf envM (fun _ => []) ["a.pdf".toList] ++
          analysisOf envM (fun _ => []) ["b.pdf".toList]
      ∧ "m.pdf".toList ∈ warningsOf envM
          (["a.pdf".toList] ++ "m.pdf".toList :: ["b.pdf".toList])) :=
  ⟨by decide,
    missing_document_skipped envM (fun _ => []) ["a.pdf".toList]
      ["b.pdf".toList] "m.pdf".toList (by decide)⟩
